import Mathlib

/-!
# Verification of the Grid'5000 benchmark dashboard core (`dashboard.py`)

Shallow embedding of the computational core of the Streamlit dashboard:

* `detect_step_trend` (lines 180–204): step-trend segmentation of a series;
* `parse_file_history` (lines 296–336): reconstruction of a file's revision
  history (fetch per revision, keep primitive fields, coerce dates, sort);
* `list_subfolders_with_json_files` (lines 58–82): recursive discovery of
  folders holding at least one `.json` result file;
* the module-level "Step 3" download loop (lines 377–388): per-file fetch,
  parse and tagging with the source file name.

Numeric values are idealized as exact rationals (`ℚ`); Python floats are not
modelled bit-for-bit.  Network effects (HTTP fetches, JSON parsing by the
`requests`/`json` libraries, timestamp parsing by `pandas.to_datetime`) are
modelled as explicit input data or oracle parameters, since they are external
to the repository's code.
-/

/-- A primitive JSON value: number, string or boolean.  `dashboard.py` keeps
exactly these three shapes (`isinstance(value, (int, float, str, bool))`). -/
inductive Prim where
  | num (q : ℚ)
  | str (s : String)
  | bool (b : Bool)
deriving DecidableEq

/-- A JSON value as seen by the dashboard: either primitive, or structured
(nested object / array), which the history extractor discards. -/
inductive JsonVal where
  | prim (p : Prim)
  | nonprim
deriving DecidableEq

/-! ## Step-trend detector (`detect_step_trend`, lines 180–204) -/

/-- Mean of the slice `s[a:b]` — the embedding of `series.iloc[a:b].mean()`. -/
def meanSlice (s : List ℚ) (a b : Nat) : ℚ :=
  (((s.drop a).take (b - a)).sum) / ((b - a : Nat) : ℚ)

/-- One iteration of the `for i in range(1, len(series))` loop of
`detect_step_trend`.  The accumulator carries `(start_idx, segments)`.
If `abs(series[i] - series[i-1]) > threshold` the current segment is flushed
(every index in `[start_idx, i)` receives the slice mean) and a new segment
starts at `i`; otherwise the accumulator is unchanged. -/
def dstStep (s : List ℚ) (t : ℚ) (acc : Nat × List ℚ) (i : Nat) : Nat × List ℚ :=
  if |s.getD i 0 - s.getD (i - 1) 0| > t then
    (i, acc.2 ++ List.replicate (i - acc.1) (meanSlice s acc.1 i))
  else
    acc

/-- Embedding of `detect_step_trend(series, threshold)` (lines 180–204):
empty input returns empty; otherwise the loop body runs for
`i = 1, …, len-1` and the final open segment is flushed with the mean of
`series[start_idx:]`. -/
def detect_step_trend (series : List ℚ) (threshold : ℚ) : List ℚ :=
  if series.length = 0 then []
  else
    let r := (List.range' 1 (series.length - 1)).foldl (dstStep series threshold) (0, [])
    r.2 ++ List.replicate (series.length - r.1) (meanSlice series r.1 series.length)

/-- The absolute change `|v[i] − v[i−1]|` — the change measure the source
actually compares against the threshold (line 193). -/
def absChange (s : List ℚ) (i : Nat) : ℚ :=
  |s.getD i 0 - s.getD (i - 1) 0|

/-- The relative change `|v[i] − v[i−1]| / max(|v[i−1]|, 1e-8)` — the change
measure described by the specification (§4.5, Glossary).  Written from the
spec's words, for comparison with the source's `absChange`. -/
def relChange (s : List ℚ) (i : Nat) : ℚ :=
  |s.getD i 0 - s.getD (i - 1) 0| / max |s.getD (i - 1) 0| (1 / 100000000)

/-- Indices `j ∈ [i, s.length)` at which the change measure strictly exceeds
the threshold: the segment-opening boundaries from position `i` on. -/
def boundsFrom (change : List ℚ → Nat → ℚ) (s : List ℚ) (t : ℚ) (i : Nat) : List Nat :=
  (List.range' i (s.length - i)).filter (fun j => change s j > t)

/-- The `(segmentStart, segmentEnd)` intervals determined by a list of
boundary indices: the first segment starts at `start`, each boundary closes
the current segment and opens the next, and the final segment ends at `len`. -/
def segsFrom (len start : Nat) : List Nat → List (Nat × Nat)
  | [] => [(start, len)]
  | b :: rest => (start, b) :: segsFrom len b rest

/-- Paint a segment: every index of `[p.1, p.2)` receives the arithmetic mean
of the series over that range. -/
def segPaint (s : List ℚ) (p : Nat × Nat) : List ℚ :=
  List.replicate (p.2 - p.1) (meanSlice s p.1 p.2)

/-- Spec-side description of the detector (§4.5), parameterized by the change
measure: scan left to right, open a new segment at `i` exactly when
`change s i` exceeds the threshold, and assign every index of each segment
the arithmetic mean of the series over that segment's range. -/
def specDetectSteps (change : List ℚ → Nat → ℚ) (s : List ℚ) (t : ℚ) : List ℚ :=
  if s.length = 0 then []
  else ((segsFrom s.length 0 (boundsFrom change s t 1)).map (segPaint s)).flatten

/-- Painting the flushed-plus-final segments of the loop state `(start, segs)`
over the remaining loop indices `range' i n` yields exactly the segments cut
at the boundary indices among those remaining indices. -/
theorem dst_loop_eq (s : List ℚ) (t : ℚ) :
    ∀ (n i start : Nat) (segs : List ℚ),
    (((List.range' i n).foldl (dstStep s t) (start, segs)).2 ++
        List.replicate (s.length - ((List.range' i n).foldl (dstStep s t) (start, segs)).1)
          (meanSlice s ((List.range' i n).foldl (dstStep s t) (start, segs)).1 s.length))
      = segs ++ ((segsFrom s.length start ((List.range' i n).filter
          (fun j => decide (absChange s j > t)))).map (segPaint s)).flatten := by
  intro n
  induction n with
  | zero =>
    intro i start segs
    simp [segsFrom, segPaint]
  | succ n ih =>
    intro i start segs
    rw [List.range'_succ]
    by_cases hc : |s.getD i 0 - s.getD (i - 1) 0| > t
    · have hd : decide (absChange s i > t) = true := by
        simp only [absChange, decide_eq_true_eq]; exact hc
      have hstep : dstStep s t (start, segs) i
          = (i, segs ++ List.replicate (i - start) (meanSlice s start i)) := by
        unfold dstStep; rw [if_pos hc]
      rw [List.foldl_cons, List.filter_cons, hd, hstep, ih]
      simp only [if_true, segsFrom, List.map_cons, List.flatten_cons, segPaint,
        List.append_assoc]
    · have hd : decide (absChange s i > t) = false := by
        simp only [absChange, decide_eq_false_iff_not]; exact hc
      have hstep : dstStep s t (start, segs) i = (start, segs) := by
        unfold dstStep; rw [if_neg hc]
      rw [List.foldl_cons, List.filter_cons, hd, hstep, ih]
      simp only [Bool.false_eq_true, if_false]

/-- The detector computes exactly the spec-side segmentation driven by the
absolute change measure. -/
theorem detect_eq_specDetect_abs (s : List ℚ) (t : ℚ) :
    detect_step_trend s t = specDetectSteps absChange s t := by
  unfold detect_step_trend specDetectSteps
  by_cases h : s.length = 0
  · simp [h]
  · simp only [h, if_false]
    have := dst_loop_eq s t (s.length - 1) 1 0 []
    simpa [boundsFrom] using this

/-- The boundary indices of the detector form a strictly increasing chain
above 0, and all of them are below the series length. -/
theorem boundsFrom_chain (change : List ℚ → Nat → ℚ) (s : List ℚ) (t : ℚ) :
    List.Chain (· < ·) 0 (boundsFrom change s t 1) ∧
      ∀ b ∈ boundsFrom change s t 1, b < s.length := by
  constructor
  · rw [List.chain_iff_pairwise, List.pairwise_cons]
    constructor
    · intro b hb
      have := (List.mem_range'_1.mp (List.mem_of_mem_filter hb)).1
      omega
    · exact List.Pairwise.sublist (List.filter_sublist _) (List.pairwise_lt_range' 1 (s.length - 1))
  · intro b hb
    have h := List.mem_range'_1.mp (List.mem_of_mem_filter hb)
    omega

/-- Length of the painted segments: covering `[start, len)` with consecutive
segments paints exactly `len - start` values. -/
theorem segsFrom_flatten_length (s : List ℚ) :
    ∀ (bs : List Nat) (start : Nat), List.Chain (· < ·) start bs →
      (∀ b ∈ bs, b ≤ s.length) → start ≤ s.length →
      (((segsFrom s.length start bs).map (segPaint s)).flatten).length
        = s.length - start := by
  intro bs
  induction bs with
  | nil =>
    intro start _ _ _
    simp [segsFrom, segPaint]
  | cons b rest ih =>
    intro start hchain hub hstart
    rw [List.chain_cons] at hchain
    have hb : b ≤ s.length := hub b (List.mem_cons_self b rest)
    have := ih b hchain.2 (fun x hx => hub x (List.mem_cons_of_mem _ hx)) hb
    simp only [segsFrom, List.map_cons, List.flatten_cons, List.length_append,
      segPaint, List.length_replicate, this]
    omega

/-- Sum of the painted segments: each segment's replicated mean sums to the
slice total, so painting `[start, len)` sums to the tail slice's total. -/
theorem segsFrom_flatten_sum (s : List ℚ) :
    ∀ (bs : List Nat) (start : Nat), List.Chain (· < ·) start bs →
      (∀ b ∈ bs, b ≤ s.length) → start ≤ s.length →
      (((segsFrom s.length start bs).map (segPaint s)).flatten).sum
        = ((s.drop start).take (s.length - start)).sum := by
  intro bs
  induction bs with
  | nil =>
    intro start _ _ hstart
    simp only [segsFrom, List.map_cons, List.map_nil, List.flatten_cons,
      List.flatten_nil, List.append_nil, segPaint, List.sum_replicate, meanSlice]
    rcases Nat.eq_or_lt_of_le hstart with h | h
    · simp [h]
    · have hne : ((s.length - start : Nat) : ℚ) ≠ 0 := by
        have : 0 < s.length - start := by omega
        exact_mod_cast Nat.pos_iff_ne_zero.mp this
      rw [nsmul_eq_mul, mul_div_cancel₀ _ hne]
  | cons b rest ih =>
    intro start hchain hub hstart
    rw [List.chain_cons] at hchain
    have hb : b ≤ s.length := hub b (List.mem_cons_self b rest)
    have hrec := ih b hchain.2 (fun x hx => hub x (List.mem_cons_of_mem _ hx)) hb
    simp only [segsFrom, List.map_cons, List.flatten_cons, List.sum_append,
      segPaint, List.sum_replicate, meanSlice, hrec]
    have hlt : start < b := hchain.1
    have hne : ((b - start : Nat) : ℚ) ≠ 0 := by
      have : 0 < b - start := by omega
      exact_mod_cast Nat.pos_iff_ne_zero.mp this
    rw [nsmul_eq_mul, mul_div_cancel₀ _ hne]
    have hsplit : (s.drop start).take (s.length - start)
        = (s.drop start).take (b - start) ++ ((s.drop b).take (s.length - b)) := by
      have h1 : s.length - start = (b - start) + (s.length - b) := by omega
      rw [h1, List.take_add, List.drop_drop]
      have h2 : start + (b - start) = b := by omega
      rw [h2]
    rw [hsplit, List.sum_append]

/-- Adjacent indices separated by a non-boundary position receive the same
painted value: if `i` is not a boundary, positions `i-1` and `i` lie in the
same segment so the flattened painting assigns them the same mean. -/
theorem segsFrom_flatten_adj (s : List ℚ) :
    ∀ (bs : List Nat) (start i : Nat), List.Chain (· < ·) start bs →
      start < i → i < s.length → i ∉ bs →
      (((segsFrom s.length start bs).map (segPaint s)).flatten).getD (i - 1 - start) 0
        = (((segsFrom s.length start bs).map (segPaint s)).flatten).getD (i - start) 0 := by
  intro bs
  induction bs with
  | nil =>
    intro start i _ hsi hil _
    simp only [segsFrom, List.map_cons, List.map_nil, List.flatten_cons, List.flatten_nil,
      List.append_nil, segPaint]
    have h1 : i - 1 - start < s.length - start := by omega
    have h2 : i - start < s.length - start := by omega
    simp [List.getD_eq_getElem?_getD, List.getElem?_replicate_of_lt, h1, h2]
  | cons b rest ih =>
    intro start i hchain hsi hil hnotin
    rw [List.chain_cons] at hchain
    have hnb : i ≠ b := fun h => hnotin (h ▸ List.mem_cons_self b rest)
    have hnrest : i ∉ rest := fun h => hnotin (List.mem_cons_of_mem _ h)
    simp only [segsFrom, List.map_cons, List.flatten_cons]
    rcases Nat.lt_or_ge i b with hib | hib
    · have hlen : (segPaint s (start, b)).length = b - start := by
        simp [segPaint]
      have h1 : i - 1 - start < (segPaint s (start, b)).length := by rw [hlen]; omega
      have h2 : i - start < (segPaint s (start, b)).length := by rw [hlen]; omega
      rw [List.getD_append _ _ _ _ h1, List.getD_append _ _ _ _ h2]
      simp only [segPaint]
      have h1' : i - 1 - start < b - start := by omega
      have h2' : i - start < b - start := by omega
      simp [List.getD_eq_getElem?_getD, List.getElem?_replicate_of_lt, h1', h2']
    · have hbi : b < i := by omega
      have hlen : (segPaint s (start, b)).length = b - start := by
        simp [segPaint]
      have h1 : (segPaint s (start, b)).length ≤ i - 1 - start := by rw [hlen]; omega
      have h2 : (segPaint s (start, b)).length ≤ i - start := by rw [hlen]; omega
      rw [List.getD_append_right _ _ _ _ h1, List.getD_append_right _ _ _ _ h2, hlen]
      have e1 : i - 1 - start - (b - start) = i - 1 - b := by omega
      have e2 : i - start - (b - start) = i - b := by omega
      rw [e1, e2]
      exact ih b i hchain.2 hbi hil hnrest

/-! ## Claim theorems for the step-trend detector -/

/-- C1 (counterexample): on the series `[10, 100]` with threshold `50`
(a threshold in `(0, 100]`), the segmentation prescribed by the claim's
relative-change measure is the single segment `[55, 55]` (relative change
`90 / 10 = 9` does not exceed `50`), but the source's `detect_step_trend`
opens a segment (absolute change `90 > 50`) and returns `[10, 100]`. -/
theorem detect_relative_change_claim_false :
    specDetectSteps relChange [10, 100] 50 = [55, 55] ∧
      detect_step_trend [10, 100] 50 = [10, 100] ∧
      relChange [10, 100] 1 = 9 := by
  refine ⟨?_, ?_, ?_⟩
  · norm_num [specDetectSteps, boundsFrom, relChange, segsFrom, segPaint, meanSlice,
      List.range', List.replicate]
  · norm_num [detect_step_trend, dstStep, meanSlice, List.range', List.replicate]
  · norm_num [relChange]

/-- C1 (amended): for every numeric series and every threshold in `(0, 100]`,
the step-trend detector opens a new segment at index `i` exactly when the
absolute change `|v[i] - v[i-1]|` exceeds the threshold; each closed
segment's indices are all assigned the arithmetic mean of `v` over that
segment's range. -/
theorem detect_step_trend_absolute_change (s : List ℚ) (t : ℚ)
    (h0 : 0 < t) (h100 : t ≤ 100) :
    detect_step_trend s t = specDetectSteps absChange s t :=
  detect_eq_specDetect_abs s t

/-- Witness for `detect_step_trend_absolute_change` at `s = [10, 100]`,
`t = 50`. -/
theorem detect_step_trend_absolute_change_witness :
    detect_step_trend [10, 100] 50 = specDetectSteps absChange [10, 100] 50 :=
  detect_step_trend_absolute_change [10, 100] 50 (by norm_num) (by norm_num)

/-- C4: on the input series `[10, 10, 10, 100, 100, 100]` with threshold
`0.5`, the detector returns exactly `[10, 10, 10, 100, 100, 100]`: two
segments of size 3 with means 10 and 100. -/
theorem detect_step_trend_example :
    detect_step_trend [10, 10, 10, 100, 100, 100] (1 / 2)
      = [10, 10, 10, 100, 100, 100] := by
  norm_num [detect_step_trend, dstStep, meanSlice, List.range', List.replicate]

/-- C7: for every input series and every threshold, the detector returns a
series of the same length as the input; in particular, the empty series maps
to the empty series. -/
theorem detect_step_trend_length (s : List ℚ) (t : ℚ) :
    (detect_step_trend s t).length = s.length ∧ detect_step_trend [] t = [] := by
  constructor
  · rw [detect_eq_specDetect_abs]
    unfold specDetectSteps
    by_cases h : s.length = 0
    · simp [h]
    · simp only [h, if_false]
      obtain ⟨hchain, hub⟩ := boundsFrom_chain absChange s t
      rw [segsFrom_flatten_length s _ 0 hchain (fun b hb => Nat.le_of_lt (hub b hb))
        (Nat.zero_le _)]
      omega
  · rfl

/-- C8: for every input series and every threshold, the sum of the output
values equals the sum of the input values (each segment is replaced by its
mean, which preserves the segment's total), and hence the global mean of the
output equals the global mean of the input. -/
theorem detect_step_trend_sum (s : List ℚ) (t : ℚ) :
    (detect_step_trend s t).sum = s.sum ∧
      (detect_step_trend s t).sum / ((detect_step_trend s t).length : ℚ)
        = s.sum / (s.length : ℚ) := by
  have hsum : (detect_step_trend s t).sum = s.sum := by
    rw [detect_eq_specDetect_abs]
    unfold specDetectSteps
    by_cases h : s.length = 0
    · rw [if_pos h]
      rw [List.length_eq_zero] at h
      simp [h]
    · rw [if_neg h]
      obtain ⟨hchain, hub⟩ := boundsFrom_chain absChange s t
      rw [segsFrom_flatten_sum s _ 0 hchain (fun b hb => Nat.le_of_lt (hub b hb))
        (Nat.zero_le _)]
      simp
  refine ⟨hsum, ?_⟩
  rw [hsum, (detect_step_trend_length s t).1]

/-- C9: the boundary comparison of the detector is strict — if the change
measure at an adjacent pair `(i-1, i)` is exactly the threshold, then `i` is
not a segment boundary and both indices receive the same output value. -/
theorem detect_step_trend_strict_boundary (s : List ℚ) (t : ℚ) (i : Nat)
    (h1 : 1 ≤ i) (h2 : i < s.length) (heq : absChange s i = t) :
    i ∉ boundsFrom absChange s t 1 ∧
      (detect_step_trend s t).getD (i - 1) 0 = (detect_step_trend s t).getD i 0 := by
  have hnotin : i ∉ boundsFrom absChange s t 1 := by
    intro hmem
    have := List.of_mem_filter hmem
    rw [decide_eq_true_eq, heq] at this
    exact lt_irrefl t this
  refine ⟨hnotin, ?_⟩
  rw [detect_eq_specDetect_abs]
  unfold specDetectSteps
  have h : ¬ s.length = 0 := by omega
  rw [if_neg h]
  obtain ⟨hchain, _⟩ := boundsFrom_chain absChange s t
  have := segsFrom_flatten_adj s (boundsFrom absChange s t 1) 0 i hchain
    (by omega) h2 hnotin
  simpa using this

/-- Witness for `detect_step_trend_strict_boundary` at `s = [1, 2]`, `t = 1`,
`i = 1`: the absolute change is exactly 1, so no boundary opens and both
positions receive the single segment's mean. -/
theorem detect_step_trend_strict_boundary_witness :
    1 ∉ boundsFrom absChange [1, 2] 1 1 ∧
      (detect_step_trend [1, 2] 1).getD 0 0 = (detect_step_trend [1, 2] 1).getD 1 0 :=
  detect_step_trend_strict_boundary [1, 2] 1 1 (by norm_num) (by norm_num)
    (by norm_num [absChange])

/-! ## History reconstructor (`parse_file_history`, lines 296–336)

A revision's fetch-and-parse outcome is explicit input data: `notFound`
models a non-200 raw-content response (line 315/327), `parseError` models a
`file_resp.json()` / `.items()` exception (line 324), and `ok fields` models
a successfully parsed JSON object.  Timestamp parsing (`pandas.to_datetime`
with `errors="coerce"`, line 333) is an oracle `Prim → Option ℚ`: `none`
models an absent or uncoercible value (`NaT`). -/

/-- Outcome of fetching one revision's file content. -/
inductive FetchResult where
  | notFound
  | parseError
  | ok (fields : List (String × JsonVal))
deriving DecidableEq

/-- The primitive-field extraction of lines 320–322: keep exactly the fields
whose value is of a primitive type, in order. -/
def extractPrims (fields : List (String × JsonVal)) : List (String × Prim) :=
  fields.filterMap (fun kv =>
    match kv.2 with
    | JsonVal.prim p => some (kv.1, p)
    | JsonVal.nonprim => none)

/-- The commit loop of lines 305–328: records are appended in listed order;
`notFound` and `parseError` revisions are skipped without a placeholder. -/
def collectRecords : List FetchResult → List (List (String × Prim))
  | [] => []
  | FetchResult.notFound :: rest => collectRecords rest
  | FetchResult.parseError :: rest => collectRecords rest
  | FetchResult.ok fields :: rest => extractPrims fields :: collectRecords rest

/-- First-match lookup of a field in a record (a Python dict access). -/
def lookupPrim (rec : List (String × Prim)) (k : String) : Option Prim :=
  (rec.find? (fun kv => kv.1 == k)).map (fun kv => kv.2)

/-- The parsed `date` column entry of one record: `pd.to_datetime(df["date"],
errors="coerce")` yields `NaT` (`none`) when the field is absent in this row
or when the oracle cannot coerce its value. -/
def getDate (pdate : Prim → Option ℚ) (rec : List (String × Prim)) : Option ℚ :=
  match lookupPrim rec "date" with
  | none => none
  | some p => pdate p

/-- Comparison used by `df.sort_values("date")`: ascending by date, with
`NaT` (`none`) placed last (`na_position="last"`). -/
def naLast : Option ℚ → Option ℚ → Bool
  | some a, some b => decide (a ≤ b)
  | some _, none => true
  | none, some _ => false
  | none, none => true

/-- Embedding of `parse_file_history` (lines 296–336), as the data frame the
function hands to the plotting layer: each kept revision's record paired with
its coerced `date`.  `none` as the overall result models the `KeyError`
raised by `df["date"]` when the frame is non-empty but no record carries a
`date` field at all; an empty frame skips the sort-and-plot branch (line
332), giving an empty series.  Ties between equal dates are ordered by a
stable merge sort; `sort_values`' order among equal keys is unspecified. -/
def parse_file_history (pdate : Prim → Option ℚ) (commits : List FetchResult) :
    Option (List (List (String × Prim) × Option ℚ)) :=
  let recs := collectRecords commits
  if recs.isEmpty then some []
  else if recs.all (fun r => (lookupPrim r "date").isNone) then none
  else some (((recs.map (fun r => (r, getDate pdate r))).mergeSort
    (fun a b => naLast a.2 b.2)))

/-- The output series of the history reconstructor (empty on the crash). -/
def historyOut (pdate : Prim → Option ℚ) (commits : List FetchResult) :
    List (List (String × Prim) × Option ℚ) :=
  (parse_file_history pdate commits).getD []

/-- `true` iff the revision is skipped for a non-200 fetch response. -/
def isNotFound : FetchResult → Bool
  | FetchResult.notFound => true
  | _ => false

/-- `true` iff the revision is skipped for a content-parse exception. -/
def isParseFailure : FetchResult → Bool
  | FetchResult.parseError => true
  | _ => false

/-- `true` iff a fetched-and-parsed revision's record carries a coercible
timestamp. -/
def okDated (pdate : Prim → Option ℚ) : FetchResult → Bool
  | FetchResult.ok fields => (getDate pdate (extractPrims fields)).isSome
  | _ => true

/-- A concrete timestamp-parsing oracle: numeric values coerce to
themselves; strings and booleans do not parse as date-times. -/
def numOracle : Prim → Option ℚ
  | Prim.num q => some q
  | _ => none

/-- Revision count bookkeeping: every listed revision is either kept as a
record or skipped as not-found or as a parse failure. -/
theorem collectRecords_length (commits : List FetchResult) :
    (collectRecords commits).length + commits.countP isNotFound
      + commits.countP isParseFailure = commits.length := by
  induction commits with
  | nil => rfl
  | cons c rest ih =>
    cases c <;>
      simp [collectRecords, List.countP_cons, isNotFound, isParseFailure] <;> omega

/-- Every kept record originates from a successfully fetched and parsed
revision. -/
theorem mem_collectRecords (commits : List FetchResult) (r : List (String × Prim)) :
    r ∈ collectRecords commits →
      ∃ fields, FetchResult.ok fields ∈ commits ∧ r = extractPrims fields := by
  induction commits with
  | nil => intro h; cases h
  | cons c rest ih =>
    cases c with
    | notFound =>
      intro h
      obtain ⟨fields, hmem, hr⟩ := ih h
      exact ⟨fields, List.mem_cons_of_mem _ hmem, hr⟩
    | parseError =>
      intro h
      obtain ⟨fields, hmem, hr⟩ := ih h
      exact ⟨fields, List.mem_cons_of_mem _ hmem, hr⟩
    | ok fields =>
      intro h
      rcases List.mem_cons.mp h with h | h
      · exact ⟨fields, List.mem_cons_self _ _, h⟩
      · obtain ⟨fields', hmem, hr⟩ := ih h
        exact ⟨fields', List.mem_cons_of_mem _ hmem, hr⟩

/-- Every successfully fetched and parsed revision is kept as a record. -/
theorem ok_mem_collectRecords (commits : List FetchResult)
    (fields : List (String × JsonVal)) (h : FetchResult.ok fields ∈ commits) :
    extractPrims fields ∈ collectRecords commits := by
  induction commits with
  | nil => cases h
  | cons c rest ih =>
    rcases List.mem_cons.mp h with h' | h'
    · rw [← h']
      exact List.mem_cons_self _ _
    · cases c <;> simp only [collectRecords] <;>
        first
          | exact ih h'
          | exact List.mem_cons_of_mem _ (ih h')

/-- The `NaT`-last date comparison is transitive. -/
theorem naLast_trans (x y z : Option ℚ) (h1 : naLast x y = true)
    (h2 : naLast y z = true) : naLast x z = true := by
  cases x <;> cases y <;> cases z <;>
    simp only [naLast, decide_eq_true_eq] at * <;> try trivial
  exact le_trans h1 h2

/-- The `NaT`-last date comparison is total. -/
theorem naLast_total (x y : Option ℚ) : naLast x y || naLast y x := by
  cases x with
  | none => cases y <;> simp [naLast]
  | some a =>
    cases y with
    | none => simp [naLast]
    | some b =>
      simp only [naLast]
      rcases le_total a b with h | h
      · simp [h]
      · simp [h]

/-! ## Claim theorems for the history reconstructor -/

/-- C3: whenever every fetched-and-parsed revision carries a coercible
timestamp (in particular whatever the listed store order), the reconstructor
does not crash, its output is sorted ascending by timestamp (every entry
carrying a timestamp), and the output length is the total revision count
minus the not-found count minus the parse-failure count — skipped revisions
leave no placeholder entries. -/
theorem history_sorted_and_counts (pdate : Prim → Option ℚ)
    (commits : List FetchResult) (h : ∀ c ∈ commits, okDated pdate c = true) :
    (parse_file_history pdate commits).isSome = true ∧
      (historyOut pdate commits).Pairwise (fun a b => naLast a.2 b.2 = true) ∧
      (∀ e ∈ historyOut pdate commits, e.2.isSome = true) ∧
      (historyOut pdate commits).length
        = commits.length - commits.countP isNotFound
          - commits.countP isParseFailure := by
  have hcount := collectRecords_length commits
  by_cases hE : (collectRecords commits).isEmpty
  · have hnil : collectRecords commits = [] := List.isEmpty_iff.mp hE
    have hP : parse_file_history pdate commits = some [] := by
      unfold parse_file_history
      rw [if_pos hE]
    refine ⟨by rw [hP]; rfl, ?_, ?_, ?_⟩
    · rw [historyOut, hP]
      exact List.Pairwise.nil
    · rw [historyOut, hP]
      intro e he
      cases he
    · rw [historyOut, hP]
      rw [hnil] at hcount
      simp only [List.length_nil, Option.getD_some] at hcount ⊢
      omega
  · have hdates : ∀ r ∈ collectRecords commits, (getDate pdate r).isSome = true := by
      intro r hr
      obtain ⟨fields, hmem, hrfl⟩ := mem_collectRecords commits r hr
      have := h _ hmem
      rw [okDated] at this
      rw [hrfl]
      exact this
    have hallF : (collectRecords commits).all
        (fun r => (lookupPrim r "date").isNone) = false := by
      rw [List.all_eq_false]
      have hne : collectRecords commits ≠ [] := by
        intro hnil
        rw [hnil] at hE
        exact hE rfl
      obtain ⟨r, hr⟩ := List.exists_mem_of_ne_nil _ hne
      refine ⟨r, hr, ?_⟩
      have := hdates r hr
      rw [getDate] at this
      intro hNone
      rw [Option.isNone_iff_eq_none] at hNone
      rw [hNone] at this
      cases this
    have hP : parse_file_history pdate commits
        = some (((collectRecords commits).map
            (fun r => (r, getDate pdate r))).mergeSort (fun a b => naLast a.2 b.2)) := by
      unfold parse_file_history
      rw [if_neg hE, hallF]
      simp
    have hOut : historyOut pdate commits
        = ((collectRecords commits).map
            (fun r => (r, getDate pdate r))).mergeSort (fun a b => naLast a.2 b.2) := by
      rw [historyOut, hP]
      rfl
    refine ⟨by rw [hP]; rfl, ?_, ?_, ?_⟩
    · rw [hOut]
      exact List.sorted_mergeSort (fun a b c => naLast_trans a.2 b.2 c.2)
        (fun a b => naLast_total a.2 b.2) _
    · intro e he
      rw [hOut, List.mem_mergeSort] at he
      obtain ⟨r, hr, hrfl⟩ := List.mem_map.mp he
      rw [← hrfl]
      exact hdates r hr
    · rw [hOut, List.length_mergeSort, List.length_map]
      omega

/-- Witness for `history_sorted_and_counts`: revisions carrying timestamps
3, 1, 2 listed in that order, interleaved with one not-found and one
parse-failure revision. -/
theorem history_sorted_and_counts_witness :
    (parse_file_history numOracle
        [FetchResult.ok [("date", JsonVal.prim (Prim.num 3))],
         FetchResult.notFound,
         FetchResult.ok [("date", JsonVal.prim (Prim.num 1))],
         FetchResult.parseError,
         FetchResult.ok [("date", JsonVal.prim (Prim.num 2))]]).isSome = true ∧
      (historyOut numOracle
        [FetchResult.ok [("date", JsonVal.prim (Prim.num 3))],
         FetchResult.notFound,
         FetchResult.ok [("date", JsonVal.prim (Prim.num 1))],
         FetchResult.parseError,
         FetchResult.ok [("date", JsonVal.prim (Prim.num 2))]]).Pairwise
          (fun a b => naLast a.2 b.2 = true) ∧
      (∀ e ∈ historyOut numOracle
        [FetchResult.ok [("date", JsonVal.prim (Prim.num 3))],
         FetchResult.notFound,
         FetchResult.ok [("date", JsonVal.prim (Prim.num 1))],
         FetchResult.parseError,
         FetchResult.ok [("date", JsonVal.prim (Prim.num 2))]], e.2.isSome = true) ∧
      (historyOut numOracle
        [FetchResult.ok [("date", JsonVal.prim (Prim.num 3))],
         FetchResult.notFound,
         FetchResult.ok [("date", JsonVal.prim (Prim.num 1))],
         FetchResult.parseError,
         FetchResult.ok [("date", JsonVal.prim (Prim.num 2))]]).length
        = ([FetchResult.ok [("date", JsonVal.prim (Prim.num 3))],
            FetchResult.notFound,
            FetchResult.ok [("date", JsonVal.prim (Prim.num 1))],
            FetchResult.parseError,
            FetchResult.ok [("date", JsonVal.prim (Prim.num 2))]] : List FetchResult).length
          - ([FetchResult.ok [("date", JsonVal.prim (Prim.num 3))],
              FetchResult.notFound,
              FetchResult.ok [("date", JsonVal.prim (Prim.num 1))],
              FetchResult.parseError,
              FetchResult.ok [("date", JsonVal.prim (Prim.num 2))]] : List FetchResult).countP isNotFound
          - ([FetchResult.ok [("date", JsonVal.prim (Prim.num 3))],
              FetchResult.notFound,
              FetchResult.ok [("date", JsonVal.prim (Prim.num 1))],
              FetchResult.parseError,
              FetchResult.ok [("date", JsonVal.prim (Prim.num 2))]] : List FetchResult).countP isParseFailure :=
  history_sorted_and_counts numOracle
    [FetchResult.ok [("date", JsonVal.prim (Prim.num 3))],
     FetchResult.notFound,
     FetchResult.ok [("date", JsonVal.prim (Prim.num 1))],
     FetchResult.parseError,
     FetchResult.ok [("date", JsonVal.prim (Prim.num 2))]] (by decide)

/-- C2 (counterexample): a revision whose `date` field holds an uncoercible
value is NOT dropped — its record appears in the output series (with a `NaT`
timestamp, placed after the dated revision), and the output keeps both
revisions. -/
theorem history_unparseable_date_not_dropped :
    ([("date", Prim.str "not-a-date")], (none : Option ℚ)) ∈
      historyOut numOracle
        [FetchResult.ok [("date", JsonVal.prim (Prim.num 5)),
                         ("initial_time", JsonVal.prim (Prim.num 2))],
         FetchResult.ok [("date", JsonVal.prim (Prim.str "not-a-date"))]] ∧
      (historyOut numOracle
        [FetchResult.ok [("date", JsonVal.prim (Prim.num 5)),
                         ("initial_time", JsonVal.prim (Prim.num 2))],
         FetchResult.ok [("date", JsonVal.prim (Prim.str "not-a-date"))]]).length = 2 := by
  have hP : parse_file_history numOracle
      [FetchResult.ok [("date", JsonVal.prim (Prim.num 5)),
                       ("initial_time", JsonVal.prim (Prim.num 2))],
       FetchResult.ok [("date", JsonVal.prim (Prim.str "not-a-date"))]]
      = some (([([("date", Prim.num 5), ("initial_time", Prim.num 2)],
                  some (5 : ℚ)),
                ([("date", Prim.str "not-a-date")], (none : Option ℚ))]).mergeSort
          (fun a b => naLast a.2 b.2)) := by
    unfold parse_file_history
    rfl
  constructor
  · rw [historyOut, hP, Option.getD_some, List.mem_mergeSort]
    decide
  · rw [historyOut, hP, Option.getD_some, List.length_mergeSort]
    rfl

/-- Whatever the input, the reconstructor's output series is pairwise ordered
by the ascending, `NaT`-last date comparison used by the sort. -/
theorem historyOut_pairwise_naLast (pdate : Prim → Option ℚ)
    (commits : List FetchResult) :
    (historyOut pdate commits).Pairwise (fun a b => naLast a.2 b.2 = true) := by
  rw [historyOut]
  unfold parse_file_history
  by_cases hE : (collectRecords commits).isEmpty = true
  · rw [if_pos hE]
    exact List.Pairwise.nil
  · rw [if_neg hE]
    by_cases hall : (collectRecords commits).all
        (fun r => (lookupPrim r "date").isNone) = true
    · rw [if_pos hall]
      exact List.Pairwise.nil
    · rw [if_neg hall, Option.getD_some]
      exact List.sorted_mergeSort (fun a b c => naLast_trans a.2 b.2 c.2)
        (fun a b => naLast_total a.2 b.2) _

/-- C2 (amended): a fetched-and-parsed revision is always kept — even when
its record lacks a `date` field or its `date` value cannot be coerced, the
record appears in the output series paired with a `NaT` (`none`) timestamp,
provided the reconstruction does not abort (it aborts with a `KeyError` only
when the frame is non-empty and no record at all has a `date` field).  Only
fetch-not-found and content-parse failures drop a revision.  The output is
ordered by the ascending, `NaT`-last comparison, so every `NaT`-dated record
is placed after all dated records. -/
theorem history_ok_revision_retained (pdate : Prim → Option ℚ)
    (commits : List FetchResult) (fields : List (String × JsonVal))
    (hmem : FetchResult.ok fields ∈ commits)
    (hsome : (parse_file_history pdate commits).isSome = true) :
    (extractPrims fields, getDate pdate (extractPrims fields)) ∈
        historyOut pdate commits ∧
      (historyOut pdate commits).Pairwise (fun a b => naLast a.2 b.2 = true) ∧
      (historyOut pdate commits).Pairwise (fun a b => a.2 = none → b.2 = none) := by
  refine ⟨?_, historyOut_pairwise_naLast pdate commits,
    (historyOut_pairwise_naLast pdate commits).imp ?_⟩
  · have hrec : extractPrims fields ∈ collectRecords commits :=
      ok_mem_collectRecords commits fields hmem
    have hE : (collectRecords commits).isEmpty = false := by
      rw [List.isEmpty_eq_false]
      intro hnil
      rw [hnil] at hrec
      cases hrec
    by_cases hall : (collectRecords commits).all
        (fun r => (lookupPrim r "date").isNone) = true
    · exfalso
      have : parse_file_history pdate commits = none := by
        unfold parse_file_history
        rw [if_neg (by rw [hE]; exact Bool.false_ne_true), if_pos hall]
      rw [this] at hsome
      cases hsome
    · have hP : parse_file_history pdate commits
          = some (((collectRecords commits).map
              (fun r => (r, getDate pdate r))).mergeSort (fun a b => naLast a.2 b.2)) := by
        unfold parse_file_history
        rw [if_neg (by rw [hE]; exact Bool.false_ne_true), if_neg hall]
      rw [historyOut, hP, Option.getD_some, List.mem_mergeSort]
      exact List.mem_map_of_mem _ hrec
  · intro a b hab ha
    cases hb : b.2 with
    | none => rfl
    | some c =>
      rw [ha, hb] at hab
      cases hab

/-- Witness for `history_ok_revision_retained` at the concrete two-revision
input whose second revision has an uncoercible `date` value: that revision's
record is in the output, and the output is `NaT`-last ordered, so the
undated record sits after the dated one. -/
theorem history_ok_revision_retained_witness :
    (extractPrims [("date", JsonVal.prim (Prim.str "not-a-date"))],
        getDate numOracle
          (extractPrims [("date", JsonVal.prim (Prim.str "not-a-date"))])) ∈
        historyOut numOracle
          [FetchResult.ok [("date", JsonVal.prim (Prim.num 5)),
                           ("initial_time", JsonVal.prim (Prim.num 2))],
           FetchResult.ok [("date", JsonVal.prim (Prim.str "not-a-date"))]] ∧
      (historyOut numOracle
          [FetchResult.ok [("date", JsonVal.prim (Prim.num 5)),
                           ("initial_time", JsonVal.prim (Prim.num 2))],
           FetchResult.ok [("date", JsonVal.prim (Prim.str "not-a-date"))]]).Pairwise
        (fun a b => naLast a.2 b.2 = true) ∧
      (historyOut numOracle
          [FetchResult.ok [("date", JsonVal.prim (Prim.num 5)),
                           ("initial_time", JsonVal.prim (Prim.num 2))],
           FetchResult.ok [("date", JsonVal.prim (Prim.str "not-a-date"))]]).Pairwise
        (fun a b => a.2 = none → b.2 = none) :=
  history_ok_revision_retained numOracle
    [FetchResult.ok [("date", JsonVal.prim (Prim.num 5)),
                     ("initial_time", JsonVal.prim (Prim.num 2))],
     FetchResult.ok [("date", JsonVal.prim (Prim.str "not-a-date"))]]
    [("date", JsonVal.prim (Prim.str "not-a-date"))] (by decide) (by rfl)

/-! ## Discovery (`list_subfolders_with_json_files`, lines 58–82)

The remote tree API is modelled as the tree itself: a folder node carries its
full path (the `item["path"]` the API reports), the names of its direct blob
children, and its subfolder nodes.  `sorted(...)` on Python strings is
lexicographic on code points, matching `String`'s linear order. -/

/-- A folder of the remote tree: its path, the names of its direct files
(blobs), and its direct subfolders. -/
inductive GTree where
  | mk (path : String) (files : List String) (subs : List GTree)

/-- Line 71: the folder has at least one direct blob child whose name ends
in `.json`. -/
def hasJsonFile (files : List String) : Bool :=
  files.any (fun n => n.endsWith ".json")

/-- The inner `recurse` of lines 61–79: append the current folder's relative
path when it has a direct `.json` child and is not the root, then descend
into every subfolder regardless. -/
def recurse (root : String) : GTree → List String
  | GTree.mk p files subs =>
    (if hasJsonFile files && !(p == root) then [p.drop (root.length + 1)] else [])
      ++ (subs.attach.map (fun t => recurse root t.1)).flatten
decreasing_by
  have := List.sizeOf_lt_of_mem t.2
  simp only [GTree.mk.sizeOf_spec]
  omega

/-- Embedding of `list_subfolders_with_json_files` (lines 58–82): the
collected relative paths, sorted (`sorted(matching_folders)`). -/
def list_subfolders_with_json_files (root : String) (tr : GTree) : List String :=
  (recurse root tr).mergeSort (fun a b => decide (a ≤ b))

/-- A folder with the given path and direct files occurs somewhere in the
tree (the folders the traversal visits). -/
inductive FolderIn : GTree → String → List String → Prop
  | here (p : String) (files : List String) (subs : List GTree) :
      FolderIn (GTree.mk p files subs) p files
  | child {t : GTree} {p : String} {files : List String}
      (q : String) (fs : List String) (subs : List GTree) :
      t ∈ subs → FolderIn t p files → FolderIn (GTree.mk q fs subs) p files

/-- The paths collected by `recurse` are exactly the relative paths of the
non-root folders of the tree having a direct `.json` child. -/
theorem mem_recurse_iff (root : String) :
    ∀ (n : Nat) (tr : GTree), sizeOf tr ≤ n → ∀ q,
      (q ∈ recurse root tr ↔
        ∃ p files, FolderIn tr p files ∧ hasJsonFile files = true ∧ p ≠ root ∧
          q = p.drop (root.length + 1)) := by
  intro n
  induction n with
  | zero =>
    intro tr h
    cases tr with
    | mk p files subs => simp [GTree.mk.sizeOf_spec] at h
  | succ n ih =>
    intro tr h q
    cases tr with
    | mk p files subs =>
      rw [recurse]
      constructor
      · intro hq
        rcases List.mem_append.mp hq with hq | hq
        · by_cases hc : hasJsonFile files && !(p == root)
          · rw [if_pos hc] at hq
            rcases List.mem_singleton.mp hq with rfl
            rw [Bool.and_eq_true] at hc
            obtain ⟨h1, h2⟩ := hc
            refine ⟨p, files, FolderIn.here p files subs, h1, ?_, rfl⟩
            simpa using h2
          · rw [if_neg hc] at hq; cases hq
        · rw [List.mem_flatten] at hq
          obtain ⟨l, hl, hql⟩ := hq
          rw [List.mem_map] at hl
          obtain ⟨⟨t, ht⟩, _, rfl⟩ := hl
          have hst : sizeOf t ≤ n := by
            have := List.sizeOf_lt_of_mem ht
            have h2 : sizeOf (GTree.mk p files subs)
                = 1 + sizeOf p + sizeOf files + sizeOf subs := by
              simp [GTree.mk.sizeOf_spec]
            omega
          obtain ⟨p', files', hin, hjson, hne, rfl⟩ := (ih t hst _).mp hql
          exact ⟨p', files', FolderIn.child p files subs ht hin, hjson, hne, rfl⟩
      · rintro ⟨p', files', hin, hjson, hne, rfl⟩
        cases hin with
        | here _ _ _ =>
          apply List.mem_append.mpr; left
          have hc : (hasJsonFile files && !(p == root)) = true := by
            simp [hjson, hne]
          rw [if_pos hc]
          exact List.mem_singleton.mpr rfl
        | child _ _ _ hmem hin' =>
          apply List.mem_append.mpr; right
          rw [List.mem_flatten]
          rename_i t
          refine ⟨recurse root t, ?_, ?_⟩
          · rw [List.mem_map]
            exact ⟨⟨t, hmem⟩, List.mem_attach _ _, rfl⟩
          · have hst : sizeOf t ≤ n := by
              have := List.sizeOf_lt_of_mem hmem
              have h2 : sizeOf (GTree.mk p files subs)
                  = 1 + sizeOf p + sizeOf files + sizeOf subs := by
                simp [GTree.mk.sizeOf_spec]
              omega
            exact (ih t hst _).mpr ⟨p', files', hin', hjson, hne, rfl⟩

/-- C5: a folder appears in the discovery output iff it is not the root
itself and has at least one direct child file named `*.json`; traversal
descends into every subfolder regardless of whether the current folder
qualifies, so qualifying descendants of non-qualifying parents are included;
the output is sorted lexicographically. -/
theorem discovery_qualifying_folders (root : String) (tr : GTree) :
    (list_subfolders_with_json_files root tr).Sorted (· ≤ ·) ∧
      ∀ q, q ∈ list_subfolders_with_json_files root tr ↔
        ∃ p files, FolderIn tr p files ∧ hasJsonFile files = true ∧ p ≠ root ∧
          q = p.drop (root.length + 1) := by
  constructor
  · have hs : ((recurse root tr).mergeSort
        (fun a b => decide (a ≤ b))).Pairwise (fun a b => decide (a ≤ b) = true) :=
      List.sorted_mergeSort
        (fun a b c h1 h2 => by
          rw [decide_eq_true_eq] at *
          exact le_trans h1 h2)
        (fun a b => by
          rcases le_total a b with h | h
          · simp [h]
          · simp [h])
        (recurse root tr)
    exact hs.imp (fun h => of_decide_eq_true h)
  · intro q
    rw [list_subfolders_with_json_files, List.mem_mergeSort]
    exact mem_recurse_iff root (sizeOf tr) tr (le_refl _) q

/-! ## Result aggregator (module-level "Step 3" loop, lines 377–388)

Each file's combined fetch-and-parse outcome is an oracle input: `failed`
models any exception in the `try` block (`raise_for_status`, `json.loads`,
or the item assignment on a non-dict value); `ok content` models aJSON
object successfully parsed from the raw response. -/

/-- Outcome of fetching and parsing one result file's current content. -/
inductive LoadResult where
  | failed
  | ok (content : List (String × JsonVal))
deriving DecidableEq

/-- The Python dict assignment `content["config"] = filename`: an existing
key keeps its position and gets the new value; a fresh key is appended. -/
def setField (content : List (String × JsonVal)) (k : String) (v : JsonVal) :
    List (String × JsonVal) :=
  if content.any (fun kv => kv.1 == k) then
    content.map (fun kv => if kv.1 == k then (k, v) else kv)
  else content ++ [(k, v)]

/-- First-match lookup of a key in a parsed JSON object. -/
def lookupJson (content : List (String × JsonVal)) (k : String) : Option JsonVal :=
  (content.find? (fun kv => kv.1 == k)).map (fun kv => kv.2)

/-- The Step 3 download loop (lines 378–388): per file, on success tag the
parsed content with `config = filename` and append it; on any exception warn
and continue with the next file. -/
def step3_download (fetch : String → LoadResult) : List String → List (List (String × JsonVal))
  | [] => []
  | f :: rest =>
    match fetch f with
    | LoadResult.ok content =>
        setField content "config" (JsonVal.prim (Prim.str f)) :: step3_download fetch rest
    | LoadResult.failed => step3_download fetch rest

/-- C6: the aggregator omits each file whose fetch or parse fails and still
returns the records of all remaining files in order — a per-file failure
never aborts the load — and the result is empty exactly when every file
failed, so total failure is signalled only by the empty sequence. -/
theorem step3_download_skips_failures (fetch : String → LoadResult)
    (files : List String) :
    step3_download fetch files = files.filterMap (fun f =>
        match fetch f with
        | LoadResult.ok content =>
            some (setField content "config" (JsonVal.prim (Prim.str f)))
        | LoadResult.failed => none) ∧
      (step3_download fetch files = [] ↔ ∀ f ∈ files, fetch f = LoadResult.failed) := by
  constructor
  · induction files with
    | nil => rfl
    | cons f rest ih =>
      rw [List.filterMap_cons]
      cases hf : fetch f with
      | failed =>
        simp only [step3_download, hf]
        exact ih
      | ok content =>
        simp only [step3_download, hf]
        rw [ih]
  · induction files with
    | nil => simp [step3_download]
    | cons f rest ih =>
      cases hf : fetch f with
      | failed =>
        simp only [step3_download, hf]
        rw [ih]
        constructor
        · intro h g hg
          rcases List.mem_cons.mp hg with rfl | hg'
          · exact hf
          · exact h g hg'
        · intro h g hg
          exact h g (List.mem_cons_of_mem _ hg)
      | ok content =>
        simp only [step3_download, hf]
        constructor
        · intro h; cases h
        · intro h
          have := h f (List.mem_cons_self _ _)
          rw [hf] at this
          cases this

/-- Looking up the given key in a record whose matching entries were all
replaced by `(k, v)` yields `v`. -/
theorem lookupJson_map_update (k : String) (v : JsonVal) :
    ∀ (c : List (String × JsonVal)), c.any (fun kv => kv.1 == k) = true →
      lookupJson (c.map (fun kv => if kv.1 == k then (k, v) else kv)) k = some v := by
  intro c
  induction c with
  | nil => intro h; cases h
  | cons kv rest ih =>
    intro hany
    rw [List.any_cons] at hany
    by_cases hk : (kv.1 == k) = true
    · rw [List.map_cons, if_pos hk]
      unfold lookupJson
      rw [@List.find?_cons_of_pos (String × JsonVal) (fun kv => kv.1 == k) (k, v) _ (by simp)]
      rfl
    · rw [Bool.not_eq_true] at hk
      have hany' : rest.any (fun kv => kv.1 == k) = true := by
        rw [hk, Bool.false_or] at hany
        exact hany
      rw [List.map_cons, if_neg (by rw [hk]; exact Bool.false_ne_true)]
      unfold lookupJson
      rw [@List.find?_cons_of_neg (String × JsonVal) (fun kv => kv.1 == k) kv _
        (by simp [hk])]
      exact ih hany'

/-- Looking up a key appended at the end of a record that did not contain it
yields the appended value. -/
theorem lookupJson_appended (k : String) (v : JsonVal) :
    ∀ (c : List (String × JsonVal)), c.any (fun kv => kv.1 == k) = false →
      lookupJson (c ++ [(k, v)]) k = some v := by
  intro c
  induction c with
  | nil =>
    intro h
    rw [List.nil_append]
    unfold lookupJson
    rw [@List.find?_cons_of_pos (String × JsonVal) (fun kv => kv.1 == k) (k, v) _ (by simp)]
    rfl
  | cons kv rest ih =>
    intro hany
    rw [List.any_cons, Bool.or_eq_false_iff] at hany
    rw [List.cons_append]
    unfold lookupJson
    rw [@List.find?_cons_of_neg (String × JsonVal) (fun kv => kv.1 == k) kv _
      (by simp [hany.1])]
    exact ih hany.2

/-- Looking up the key just set by `setField` yields the new value. -/
theorem lookupJson_setField (content : List (String × JsonVal)) (k : String)
    (v : JsonVal) : lookupJson (setField content k v) k = some v := by
  unfold setField
  by_cases hany : content.any (fun kv => kv.1 == k) = true
  · rw [if_pos hany]
    exact lookupJson_map_update k v content hany
  · rw [Bool.not_eq_true] at hany
    rw [if_neg (by rw [hany]; exact Bool.false_ne_true)]
    exact lookupJson_appended k v content hany


/-- C10: every successfully loaded file contributes its record to the output
with the `config` field set to the source file name — overwriting any
`config` value the JSON content itself carried. -/
theorem step3_download_config_overwritten (fetch : String → LoadResult)
    (files : List String) (f : String) (content : List (String × JsonVal))
    (hf : f ∈ files) (hok : fetch f = LoadResult.ok content) :
    setField content "config" (JsonVal.prim (Prim.str f)) ∈ step3_download fetch files ∧
      lookupJson (setField content "config" (JsonVal.prim (Prim.str f))) "config"
        = some (JsonVal.prim (Prim.str f)) := by
  refine ⟨?_, lookupJson_setField content "config" (JsonVal.prim (Prim.str f))⟩
  induction files with
  | nil => cases hf
  | cons g rest ih =>
    rcases List.mem_cons.mp hf with rfl | hf'
    · simp only [step3_download, hok]
      exact List.mem_cons_self _ _
    · cases hg : fetch g with
      | failed =>
        simp only [step3_download, hg]
        exact ih hf'
      | ok c =>
        simp only [step3_download, hg]
        exact List.mem_cons_of_mem _ (ih hf')

/-- Witness for `step3_download_config_overwritten`: one file whose JSON
content already carries a `config` field with another value. -/
theorem step3_download_config_overwritten_witness :
    setField [("config", JsonVal.prim (Prim.str "OLD")), ("x", JsonVal.nonprim)]
        "config" (JsonVal.prim (Prim.str "a.json")) ∈
      step3_download
        (fun f => if f == "a.json" then
            LoadResult.ok [("config", JsonVal.prim (Prim.str "OLD")), ("x", JsonVal.nonprim)]
          else LoadResult.failed) ["a.json"] ∧
      lookupJson (setField [("config", JsonVal.prim (Prim.str "OLD")), ("x", JsonVal.nonprim)]
          "config" (JsonVal.prim (Prim.str "a.json"))) "config"
        = some (JsonVal.prim (Prim.str "a.json")) :=
  step3_download_config_overwritten
    (fun f => if f == "a.json" then
        LoadResult.ok [("config", JsonVal.prim (Prim.str "OLD")), ("x", JsonVal.nonprim)]
      else LoadResult.failed)
    ["a.json"] "a.json" [("config", JsonVal.prim (Prim.str "OLD")), ("x", JsonVal.nonprim)]
    (by decide) (by rfl)
